import Mathlib

/-!
# Verification of the segment sampler and encode pipeline of `scripts/yt_download.py`

This file gives a shallow embedding of the segment-selection and encoding
logic of `scripts/yt_download.py` and proves properties about it.

Modelling conventions:
* Python floats are modelled as rationals (`ℚ`); all quantities appearing in
  the program (durations probed by ffprobe, the constants `10.0`, `1.0`) are
  exact in this range, and no rounding behaviour of the script is exercised
  at the magnitudes involved.
* The impure parts (directory scan for existing files, `has_vaapi` probes,
  ffmpeg subprocess outcomes, `random.sample`) are parameters of the model:
  the count of pre-existing `.mp4` files is `existingCount`, the outcome of
  each `has_vaapi()` call and each ffmpeg invocation is an explicit boolean,
  and the random source is an explicit seed driving a deterministic
  draw-without-replacement procedure.
* Python exceptions are `Except` values.
-/

namespace YtDownload

/-! ## Trim window (cut_segments, lines 143–146)

`trim_start = 10.0`, `trim_end = max(total_duration - 10.0, trim_start + duration)`,
`usable_duration = trim_end - trim_start`. -/

/-- `trim_start = 10.0` (line 143). -/
def trimStart : ℚ := 10

/-- `trim_end = max(total_duration - 10.0, trim_start + duration)` (line 144). -/
def trimEnd (totalDuration : ℚ) (duration : ℕ) : ℚ :=
  max (totalDuration - 10) (trimStart + duration)

/-- `usable_duration = trim_end - trim_start` (line 146). -/
def usableDuration (totalDuration : ℚ) (duration : ℕ) : ℚ :=
  trimEnd totalDuration duration - trimStart

/-! ## Candidate starts (cut_segments, lines 162–166)

```
all_possible_starts = []
t = trim_start
while t + duration <= trim_end:
    all_possible_starts.append(t)
    t += 1.0
```
The while loop is embedded as a well-founded recursion on `t`. -/

/-- The while loop of lines 163–166: collect `t, t+1, t+2, ...` while
`t + duration <= trim_end`. -/
def genStarts (te : ℚ) (d : ℕ) (t : ℚ) : List ℚ :=
  if h : t + d ≤ te then t :: genStarts te d (t + 1) else []
termination_by (⌊te⌋ + 1 - ⌊t⌋).toNat
decreasing_by
  have hd : (0 : ℚ) ≤ (d : ℚ) := by positivity
  have ht : t ≤ te := le_trans (le_add_of_nonneg_right hd) h
  have hf : ⌊t⌋ ≤ ⌊te⌋ := Int.floor_le_floor ht
  rw [Int.floor_add_one]
  omega

/-- `all_possible_starts` as computed from the trim window (lines 162–166). -/
def allPossibleStarts (totalDuration : ℚ) (duration : ℕ) : List ℚ :=
  genStarts (trimEnd totalDuration duration) duration trimStart

/-! ## Random sampling (line 171)

`random.sample(all_possible_starts, actual_clips)` draws `actual_clips`
elements without replacement.  The PRNG is modelled by an explicit natural
seed: at each step an index into the remaining population is derived from
the seed, the element there is taken, and the seed is advanced.  This keeps
the two behavioural facts the program relies on — the draw is without
replacement, and it is a deterministic function of the seed — while
abstracting the concrete Mersenne-Twister stream. -/

/-- Model of `random.sample(xs, k)`: draw `k` elements without replacement,
deterministically from `seed`. -/
def drawWithoutReplacement {α : Type} [DecidableEq α] :
    ℕ → ℕ → List α → List α
  | _, 0, _ => []
  | seed, k + 1, xs =>
    if hx : xs.length = 0 then []
    else
      let i : ℕ := seed % xs.length
      let x := xs.get ⟨i, Nat.mod_lt _ (Nat.pos_of_ne_zero hx)⟩
      x :: drawWithoutReplacement (seed / xs.length + i + 1) k (xs.erase x)

/-! ## The sampler (cut_segments, lines 141–171)

Everything in `cut_segments` up to and including the computation of
`chosen_starts` plus the per-clip filename ordinals of line 178.  The
directory scan of lines 156–157 is abstracted by `existingCount` (the count
of pre-existing `.mp4` files); `start_index = existingCount + 1`. -/

/-- The `ValueError("Video too short after trimming...")` of lines 147–151. -/
inductive SampleError where
  | videoTooShort : SampleError
deriving DecidableEq, Repr

/-- One selected clip: the ordinal used in the output filename
`bg_{ordinal:03d}.mp4`, the start offset and the clip duration. -/
structure ClipRequest where
  index : ℕ
  start : ℚ
  duration : ℕ
deriving DecidableEq, Repr

/-- The selection phase of `cut_segments` (lines 141–171 and the ordinal
assignment of line 178): compute the trim window, reject when
`usable_duration < duration`, clamp the clip count by
`int(usable_duration / duration)` and by the number of candidate starts,
draw without replacement, sort ascending, and attach ordinals starting at
`len(existing) + 1`. -/
def cutSegmentsSample (seed : ℕ) (totalDuration : ℚ) (duration : ℕ)
    (numClips : ℕ) (existingCount : ℕ) : Except SampleError (List ClipRequest) :=
  let te := trimEnd totalDuration duration
  let usable := usableDuration totalDuration duration
  if usable < duration then
    .error .videoTooShort
  else
    let startIndex := existingCount + 1
    -- `max_possible = int(usable_duration / duration)` (line 159); the
    -- quotient is nonnegative here, so Python's int() truncation is floor.
    let maxPossible : ℕ := (⌊usable / (duration : ℚ)⌋).toNat
    let actualClips := min numClips maxPossible
    let starts := genStarts te duration trimStart
    -- lines 168–169: `if len(all_possible_starts) < actual_clips: ...`
    let actualClips := if starts.length < actualClips then starts.length else actualClips
    let chosenStarts := List.insertionSort (· ≤ ·)
      (drawWithoutReplacement seed actualClips starts)
    .ok (chosenStarts.enum.map (fun p => ⟨startIndex + p.1, p.2, duration⟩))

/-! ## Basic facts about the trim window -/

/-- The `max` clamp of line 144 forces `usable_duration >= duration`
unconditionally. -/
theorem duration_le_usableDuration (total : ℚ) (d : ℕ) :
    (d : ℚ) ≤ usableDuration total d := by
  have h := le_max_right (total - 10) (trimStart + (d : ℚ))
  unfold usableDuration trimEnd
  linarith

/-- When the video is long enough (`total ≥ 20 + d`), the clamp is inert and
`usable_duration = total - 20`. -/
theorem usableDuration_of_long {total : ℚ} {d : ℕ} (h : 20 + (d : ℚ) ≤ total) :
    usableDuration total d = total - 20 := by
  unfold usableDuration trimEnd trimStart
  rw [max_eq_left (by linarith)]
  ring

/-! ## Closed form of the candidate-start loop -/

theorem genStarts_closed (te : ℚ) (d : ℕ) :
    ∀ (m : ℕ) (t : ℚ), t + (d : ℚ) ≤ te → (⌊te - (d : ℚ) - t⌋).toNat = m →
      genStarts te d t = (List.range (m + 1)).map (fun i : ℕ => t + (i : ℚ)) := by
  intro m
  induction m with
  | zero =>
    intro t ht hm
    have h0 : (0 : ℚ) ≤ te - (d : ℚ) - t := by linarith
    have hf0 : (0 : ℤ) ≤ ⌊te - (d : ℚ) - t⌋ := Int.floor_nonneg.mpr h0
    have hz : ⌊te - (d : ℚ) - t⌋ = 0 := by omega
    have hlt : te - (d : ℚ) - t < 1 := by
      have h2 := Int.lt_floor_add_one (te - (d : ℚ) - t)
      rw [hz] at h2
      push_cast at h2
      linarith
    have hnext : ¬ (t + 1 + (d : ℚ) ≤ te) := by intro hc; linarith
    rw [genStarts, dif_pos ht, genStarts, dif_neg hnext]
    simp [List.range_succ]
  | succ m ih =>
    intro t ht hm
    have h0 : (0 : ℚ) ≤ te - (d : ℚ) - t := by linarith
    have hf0 : (0 : ℤ) ≤ ⌊te - (d : ℚ) - t⌋ := Int.floor_nonneg.mpr h0
    have hfk : ⌊te - (d : ℚ) - t⌋ = (m : ℤ) + 1 := by omega
    have h1 : (1 : ℚ) ≤ te - (d : ℚ) - t := by
      have h2 : ((1 : ℤ) : ℚ) ≤ te - (d : ℚ) - t := Int.le_floor.mp (by omega)
      exact_mod_cast h2
    have ht' : (t + 1) + (d : ℚ) ≤ te := by linarith
    have hm' : (⌊te - (d : ℚ) - (t + 1)⌋).toNat = m := by
      have heq : te - (d : ℚ) - (t + 1) = (te - (d : ℚ) - t) - 1 := by ring
      rw [heq, Int.floor_sub_one, hfk]
      omega
    rw [genStarts, dif_pos ht, ih (t + 1) ht' hm']
    conv_rhs => rw [List.range_succ_eq_map]
    simp only [List.map_cons, List.map_map, Nat.cast_zero, add_zero]
    refine congrArg _ (List.map_congr_left ?_)
    intro i _
    simp only [Function.comp_apply]
    push_cast
    ring

/-- The candidate loop in closed form: when the guard holds initially it
produces `⌊te - d - t⌋ + 1` equally spaced starts, otherwise nothing. -/
theorem genStarts_eq (te : ℚ) (d : ℕ) (t : ℚ) :
    genStarts te d t =
      if t + (d : ℚ) ≤ te then
        (List.range ((⌊te - (d : ℚ) - t⌋).toNat + 1)).map (fun i : ℕ => t + (i : ℚ))
      else [] := by
  by_cases h : t + (d : ℚ) ≤ te
  · rw [if_pos h]
    exact genStarts_closed te d _ t h rfl
  · rw [if_neg h, genStarts, dif_neg h]

/-- Membership in the candidate loop output. -/
theorem mem_genStarts {te : ℚ} {d : ℕ} {t x : ℚ} :
    x ∈ genStarts te d t ↔ ∃ i : ℕ, x = t + (i : ℚ) ∧ t + (i : ℚ) + (d : ℚ) ≤ te := by
  rw [genStarts_eq]
  by_cases h : t + (d : ℚ) ≤ te
  · rw [if_pos h]
    constructor
    · intro hx
      rw [List.mem_map] at hx
      obtain ⟨i, hi, hfx⟩ := hx
      rw [List.mem_range] at hi
      refine ⟨i, hfx.symm, ?_⟩
      have h0 : (0 : ℚ) ≤ te - (d : ℚ) - t := by linarith
      have hf0 : (0 : ℤ) ≤ ⌊te - (d : ℚ) - t⌋ := Int.floor_nonneg.mpr h0
      have hiz : (i : ℤ) ≤ ⌊te - (d : ℚ) - t⌋ := by omega
      have hiq : (i : ℚ) ≤ te - (d : ℚ) - t := by
        have h2 := Int.le_floor.mp hiz
        exact_mod_cast h2
      linarith
    · rintro ⟨i, hx, hle⟩
      rw [List.mem_map]
      refine ⟨i, ?_, hx.symm⟩
      rw [List.mem_range]
      have h0 : (0 : ℚ) ≤ te - (d : ℚ) - t := by linarith
      have hf0 : (0 : ℤ) ≤ ⌊te - (d : ℚ) - t⌋ := Int.floor_nonneg.mpr h0
      have hiq : (i : ℚ) ≤ te - (d : ℚ) - t := by linarith
      have hiz : (i : ℤ) ≤ ⌊te - (d : ℚ) - t⌋ := Int.le_floor.mpr (by exact_mod_cast hiq)
      omega
  · rw [if_neg h]
    simp only [List.not_mem_nil, false_iff, not_exists, not_and]
    intro i hx hle
    have hge : (0 : ℚ) ≤ (i : ℚ) := by positivity
    exact h (by linarith)

/-- The candidate loop output has no duplicates. -/
theorem genStarts_nodup (te : ℚ) (d : ℕ) (t : ℚ) : (genStarts te d t).Nodup := by
  rw [genStarts_eq]
  split
  · refine List.Nodup.map ?_ (List.nodup_range _)
    intro i j hij
    have h2 : (i : ℚ) = (j : ℚ) := by
      simpa using hij
    exact_mod_cast h2
  · exact List.nodup_nil

/-! ## Facts about the draw-without-replacement model -/

theorem drawWithoutReplacement_subset {α : Type} [DecidableEq α] :
    ∀ (seed k : ℕ) (xs : List α), ∀ y ∈ drawWithoutReplacement seed k xs, y ∈ xs := by
  intro seed k
  induction k generalizing seed with
  | zero => intro xs y hy; simp [drawWithoutReplacement] at hy
  | succ k ih =>
    intro xs y hy
    rw [drawWithoutReplacement] at hy
    split at hy
    · simp at hy
    · rcases List.mem_cons.mp hy with h | h
      · rw [h]; exact List.get_mem _ _ _
      · exact List.erase_subset _ _ (ih _ _ y h)

theorem drawWithoutReplacement_nodup {α : Type} [DecidableEq α] :
    ∀ (seed k : ℕ) (xs : List α), xs.Nodup →
      (drawWithoutReplacement seed k xs).Nodup := by
  intro seed k
  induction k generalizing seed with
  | zero => intro xs _; simp [drawWithoutReplacement]
  | succ k ih =>
    intro xs hnd
    rw [drawWithoutReplacement]
    split
    · exact List.nodup_nil
    · rename_i hx
      refine List.nodup_cons.mpr ⟨?_, ih _ _ (hnd.erase _)⟩
      intro hmem
      have h2 := drawWithoutReplacement_subset _ _ _ _ hmem
      exact ((hnd.mem_erase_iff).mp h2).1 rfl

theorem drawWithoutReplacement_length {α : Type} [DecidableEq α] :
    ∀ (seed k : ℕ) (xs : List α), k ≤ xs.length →
      (drawWithoutReplacement seed k xs).length = k := by
  intro seed k
  induction k generalizing seed with
  | zero => intro xs _; simp [drawWithoutReplacement]
  | succ k ih =>
    intro xs hk
    rw [drawWithoutReplacement]
    split
    · omega
    · rename_i hx
      simp only [List.length_cons]
      have hmem : xs.get ⟨seed % xs.length, Nat.mod_lt _ (Nat.pos_of_ne_zero hx)⟩ ∈ xs :=
        List.get_mem _ _ _
      have herase := List.length_erase_of_mem hmem
      rw [ih _ _ (by omega)]

/-! ## Normal form of the sampler

The `ValueError` branch of lines 147–151 can never be taken (the clamp of
line 144 forces `usable_duration ≥ duration`), so `cut_segments` always
reaches the sampling code; this equation isolates the value it computes. -/

/-- `actual_clips` after both clamps (lines 159–160 and 168–169):
`min(num_clips, int(usable/duration), len(all_possible_starts))`. -/
def actualClipCount (totalDuration : ℚ) (duration numClips : ℕ) : ℕ :=
  min (min numClips (⌊usableDuration totalDuration duration / (duration : ℚ)⌋).toNat)
    (allPossibleStarts totalDuration duration).length

/-- `chosen_starts = sorted(random.sample(all_possible_starts, actual_clips))`
(line 171). -/
def chosenStarts (seed : ℕ) (totalDuration : ℚ) (duration numClips : ℕ) : List ℚ :=
  List.insertionSort (· ≤ ·)
    (drawWithoutReplacement seed (actualClipCount totalDuration duration numClips)
      (allPossibleStarts totalDuration duration))

/-- The sampler never takes the error branch and returns the chosen starts
with ordinals `existingCount + 1, existingCount + 2, ...` in order. -/
theorem cutSegmentsSample_eq (seed : ℕ) (total : ℚ) (d n e : ℕ) :
    cutSegmentsSample seed total d n e =
      .ok ((chosenStarts seed total d n).enum.map
        (fun p => ⟨e + 1 + p.1, p.2, d⟩)) := by
  have h : ¬ usableDuration total d < (d : ℚ) :=
    not_lt.mpr (duration_le_usableDuration total d)
  have hmin : ∀ (L a : ℕ), (if L < a then L else a) = min a L := by
    intro L a; split <;> omega
  simp only [cutSegmentsSample, usableDuration, trimEnd, trimStart] at h ⊢
  rw [if_neg h, hmin]
  rfl

/-! ## Facts about `all_possible_starts` -/

theorem trimStart_add_le_trimEnd (total : ℚ) (d : ℕ) :
    trimStart + (d : ℚ) ≤ trimEnd total d :=
  le_max_right _ _

theorem allPossibleStarts_eq (total : ℚ) (d : ℕ) :
    allPossibleStarts total d =
      (List.range ((⌊usableDuration total d - (d : ℚ)⌋).toNat + 1)).map
        (fun i : ℕ => trimStart + (i : ℚ)) := by
  unfold allPossibleStarts
  rw [genStarts_eq, if_pos (trimStart_add_le_trimEnd total d),
    show trimEnd total d - (d : ℚ) - trimStart = usableDuration total d - (d : ℚ) from by
      unfold usableDuration; ring]

theorem length_allPossibleStarts (total : ℚ) (d : ℕ) :
    (allPossibleStarts total d).length = (⌊usableDuration total d - (d : ℚ)⌋).toNat + 1 := by
  rw [allPossibleStarts_eq, List.length_map, List.length_range]

theorem mem_allPossibleStarts {total : ℚ} {d : ℕ} {x : ℚ} :
    x ∈ allPossibleStarts total d ↔
      ∃ i : ℕ, x = trimStart + (i : ℚ) ∧ trimStart + (i : ℚ) + (d : ℚ) ≤ trimEnd total d :=
  mem_genStarts

theorem allPossibleStarts_nodup (total : ℚ) (d : ℕ) :
    (allPossibleStarts total d).Nodup :=
  genStarts_nodup _ _ _

/-- `t = 10.0` is always collected on the loop's first iteration. -/
theorem trimStart_mem_allPossibleStarts (total : ℚ) (d : ℕ) :
    trimStart ∈ allPossibleStarts total d := by
  rw [mem_allPossibleStarts]
  exact ⟨0, by simp, by simpa using trimStart_add_le_trimEnd total d⟩

/-! ## Facts about `chosen_starts` -/

theorem chosenStarts_length (seed : ℕ) (total : ℚ) (d n : ℕ) :
    (chosenStarts seed total d n).length = actualClipCount total d n := by
  unfold chosenStarts
  rw [(List.perm_insertionSort _ _).length_eq]
  exact drawWithoutReplacement_length _ _ _ (min_le_right _ _)

theorem chosenStarts_sorted (seed : ℕ) (total : ℚ) (d n : ℕ) :
    List.Sorted (· ≤ ·) (chosenStarts seed total d n) :=
  List.sorted_insertionSort _ _

theorem chosenStarts_nodup (seed : ℕ) (total : ℚ) (d n : ℕ) :
    (chosenStarts seed total d n).Nodup :=
  ((List.perm_insertionSort _ _).nodup_iff).mpr
    (drawWithoutReplacement_nodup _ _ _ (allPossibleStarts_nodup total d))

theorem chosenStarts_subset (seed : ℕ) (total : ℚ) (d n : ℕ) :
    ∀ x ∈ chosenStarts seed total d n, x ∈ allPossibleStarts total d := by
  intro x hx
  exact drawWithoutReplacement_subset _ _ _ x
    ((List.perm_insertionSort _ _).mem_iff.mp hx)

theorem one_le_actualClipCount (total : ℚ) (d n : ℕ) (hd : 0 < d) (hn : 1 ≤ n) :
    1 ≤ actualClipCount total d n := by
  unfold actualClipCount
  have hdq : (0 : ℚ) < (d : ℚ) := by exact_mod_cast hd
  have husable : (d : ℚ) ≤ usableDuration total d := duration_le_usableDuration total d
  have hquot : (1 : ℚ) ≤ usableDuration total d / (d : ℚ) :=
    (one_le_div hdq).mpr husable
  have hfloor : (1 : ℤ) ≤ ⌊usableDuration total d / (d : ℚ)⌋ :=
    Int.le_floor.mpr (by exact_mod_cast hquot)
  have hlen := length_allPossibleStarts total d
  omega

/-! ## Shape of the returned `ClipRequest` list -/

theorem enumMap_length (l : List ℚ) (b d' : ℕ) :
    ((l.enum.map (fun p => (⟨b + p.1, p.2, d'⟩ : ClipRequest)))).length = l.length := by
  rw [List.length_map, List.enum_length]

theorem enumMap_start (l : List ℚ) (b d' : ℕ) :
    ((l.enum.map (fun p => (⟨b + p.1, p.2, d'⟩ : ClipRequest)))).map
      (fun r => r.start) = l := by
  rw [List.map_map]
  exact List.enum_map_snd l

theorem enumMap_index (l : List ℚ) (b d' : ℕ) :
    ((l.enum.map (fun p => (⟨b + p.1, p.2, d'⟩ : ClipRequest)))).map
      (fun r => r.index) = (List.range l.length).map (fun i => b + i) := by
  rw [List.map_map, ← List.enum_map_fst l, List.map_map]
  rfl

theorem enumMap_duration (l : List ℚ) (b d' : ℕ) :
    ∀ r ∈ l.enum.map (fun p => (⟨b + p.1, p.2, d'⟩ : ClipRequest)), r.duration = d' := by
  intro r hr
  obtain ⟨p, _, rfl⟩ := List.mem_map.mp hr
  rfl

theorem enumMap_mem_start (l : List ℚ) (b d' : ℕ) :
    ∀ r ∈ l.enum.map (fun p => (⟨b + p.1, p.2, d'⟩ : ClipRequest)), r.start ∈ l := by
  intro r hr
  obtain ⟨p, hp, rfl⟩ := List.mem_map.mp hr
  exact List.snd_mem_of_mem_enum hp

/-! ## Output filenames (line 178)

`filename = f"bg_{start_index + i:03d}.mp4"`. -/

/-- Python's `{n:03d}`: decimal digits left-padded with `0` to width 3. -/
def fmt3 (n : ℕ) : String :=
  let s := toString n
  if s.length < 3 then String.mk (List.replicate (3 - s.length) '0') ++ s else s

/-- The output filename for a given ordinal: `bg_{ordinal:03d}.mp4`. -/
def fileName (ordinal : ℕ) : String :=
  "bg_" ++ fmt3 ordinal ++ ".mp4"

/-! ## The encode phase (cut_with_ffmpeg, lines 48–71, and the loop of
lines 176–183)

`cut_with_ffmpeg` first calls `has_vaapi()` and raises `RuntimeError` if it
returns false — this happens inside every per-clip call, so hardware
availability is re-probed for each clip.  It then runs one ffmpeg command
with the `h264_vaapi` encoder; `subprocess.run(cmd, check=True)` raises
`CalledProcessError` when ffmpeg fails.  There is no other encoder and no
retry.  The loop of lines 176–183 appends the output path after each
successful call; a raised exception aborts the loop (and the whole batch).

The environment of one clip's attempt is a `ClipAttempt`: the outcome of
the `has_vaapi()` probe made during that clip's call and the exit status of
its ffmpeg invocation.  The model returns the list of issued ffmpeg encode
commands (the trace), the files present on disk afterwards (per the
encoder contract assumed in the spec, ffmpeg either completes the output
file or leaves nothing usable), and the loop's result. -/

/-- Outcomes of the external calls made while encoding one clip. -/
structure ClipAttempt where
  start : ℚ
  /-- Result of the `has_vaapi()` probe inside this clip's
  `cut_with_ffmpeg` call (line 53). -/
  vaapiOk : Bool
  /-- Whether this clip's ffmpeg invocation (line 71) exits successfully. -/
  encodeOk : Bool
deriving DecidableEq, Repr

/-- The two exceptions `cut_with_ffmpeg` can raise: the `RuntimeError` of
lines 54–56 and the `CalledProcessError` from `check=True` on line 71. -/
inductive EncodeErr where
  | noVaapiDevice : EncodeErr
  | subprocessFailed : EncodeErr
deriving DecidableEq, Repr

/-- One issued ffmpeg encode command (lines 57–70): we record the video
codec it selects, the cut window and the output path. -/
structure FfmpegCmd where
  codec : String
  start : ℚ
  duration : ℕ
  output : String
deriving DecidableEq, Repr

/-- `cut_with_ffmpeg(input, start, duration, output)` (lines 48–71):
probe VAAPI, raise if absent, else run one `h264_vaapi` ffmpeg command.
Returns the issued commands and the call's outcome. -/
def cutWithFfmpeg (c : ClipAttempt) (d : ℕ) (outputPath : String) :
    List FfmpegCmd × Except EncodeErr Unit :=
  if c.vaapiOk = false then
    ([], .error .noVaapiDevice)
  else
    ([⟨"h264_vaapi", c.start, d, outputPath⟩],
      if c.encodeOk then .ok () else .error .subprocessFailed)

/-- The per-clip loop of lines 176–183, starting at ordinal `b`
(`start_index + i` for the `i`-th clip).  Result components: issued ffmpeg
commands, files on disk, and the value `cut_segments` returns or the
exception it propagates. -/
def encodeLoop (d : ℕ) :
    ℕ → List ClipAttempt → List FfmpegCmd × List String × Except EncodeErr (List String)
  | _, [] => ([], [], .ok [])
  | b, c :: rest =>
    match cutWithFfmpeg c d (fileName b) with
    | (cmds, .error e) => (cmds, [], .error e)
    | (cmds, .ok _) =>
      let r := encodeLoop d (b + 1) rest
      (cmds ++ r.1, fileName b :: r.2.1, Except.map (fun l => fileName b :: l) r.2.2)

/-- Step equation: a clip whose probe and ffmpeg call both succeed. -/
theorem encodeLoop_cons_good (d b : ℕ) (c : ClipAttempt) (rest : List ClipAttempt)
    (hv : c.vaapiOk = true) (he : c.encodeOk = true) :
    encodeLoop d b (c :: rest) =
      (⟨"h264_vaapi", c.start, d, fileName b⟩ :: (encodeLoop d (b + 1) rest).1,
        fileName b :: (encodeLoop d (b + 1) rest).2.1,
        Except.map (fun l => fileName b :: l) (encodeLoop d (b + 1) rest).2.2) := by
  simp [encodeLoop, cutWithFfmpeg, hv, he]

/-- Step equation: the `has_vaapi()` probe fails, so `cut_with_ffmpeg`
raises before issuing any encode command. -/
theorem encodeLoop_cons_noVaapi (d b : ℕ) (c : ClipAttempt) (rest : List ClipAttempt)
    (hv : c.vaapiOk = false) :
    encodeLoop d b (c :: rest) = ([], [], .error .noVaapiDevice) := by
  simp [encodeLoop, cutWithFfmpeg, hv]

/-- Step equation: the probe succeeds but ffmpeg exits nonzero, so
`subprocess.run(..., check=True)` raises after the single attempt. -/
theorem encodeLoop_cons_encFail (d b : ℕ) (c : ClipAttempt) (rest : List ClipAttempt)
    (hv : c.vaapiOk = true) (he : c.encodeOk = false) :
    encodeLoop d b (c :: rest) =
      ([⟨"h264_vaapi", c.start, d, fileName b⟩], [], .error .subprocessFailed) := by
  simp [encodeLoop, cutWithFfmpeg, hv, he]

theorem fileName_range_succ (L b : ℕ) :
    (List.range (L + 1)).map (fun i => fileName (b + i)) =
      fileName b :: (List.range L).map (fun i => fileName (b + 1 + i)) := by
  rw [List.range_succ_eq_map]
  simp only [List.map_cons, List.map_map, Nat.add_zero]
  refine congrArg _ (List.map_congr_left ?_)
  intro i _
  simp only [Function.comp_apply]
  exact congrArg fileName (by omega)

/-- A fully successful run: every probe and every ffmpeg call succeeds.
The loop returns (and leaves on disk) exactly the files
`bg_{b:03d}.mp4, bg_{b+1:03d}.mp4, ...`, one per clip, in order. -/
theorem encodeLoop_all_ok (d : ℕ) :
    ∀ (cs : List ClipAttempt) (b : ℕ),
      (∀ a ∈ cs, a.vaapiOk = true ∧ a.encodeOk = true) →
      (encodeLoop d b cs).2.1 = (List.range cs.length).map (fun i => fileName (b + i)) ∧
      (encodeLoop d b cs).2.2 = .ok ((List.range cs.length).map (fun i => fileName (b + i))) := by
  intro cs
  induction cs with
  | nil => intro b _; simp [encodeLoop]
  | cons c rest ih =>
    intro b hgood
    obtain ⟨hv, he⟩ := hgood c (List.mem_cons_self c rest)
    have hrest : ∀ a ∈ rest, a.vaapiOk = true ∧ a.encodeOk = true :=
      fun a ha => hgood a (List.mem_cons_of_mem _ ha)
    obtain ⟨ih1, ih2⟩ := ih (b + 1) hrest
    rw [encodeLoop_cons_good d b c rest hv he]
    constructor
    · simp only [List.length_cons, fileName_range_succ, ih1]
    · simp only [List.length_cons, fileName_range_succ, ih2]
      rfl

/-- Every ffmpeg command the loop ever issues selects the `h264_vaapi`
encoder: the command template of lines 57–70 is the only one in the
program. -/
theorem encodeLoop_codec (d : ℕ) :
    ∀ (cs : List ClipAttempt) (b : ℕ),
      ∀ cmd ∈ (encodeLoop d b cs).1, cmd.codec = "h264_vaapi" := by
  intro cs
  induction cs with
  | nil => intro b cmd hcmd; simp [encodeLoop] at hcmd
  | cons c rest ih =>
    intro b cmd hcmd
    by_cases hv : c.vaapiOk = false
    · rw [encodeLoop_cons_noVaapi d b c rest hv] at hcmd
      simp at hcmd
    · rw [Bool.not_eq_false] at hv
      by_cases he : c.encodeOk = true
      · rw [encodeLoop_cons_good d b c rest hv he] at hcmd
        rcases List.mem_cons.mp hcmd with h | h
        · rw [h]
        · exact ih (b + 1) cmd h
      · rw [Bool.not_eq_true] at he
        rw [encodeLoop_cons_encFail d b c rest hv he] at hcmd
        rw [List.mem_singleton.mp hcmd]

/-- A failing clip aborts the whole batch: if every clip before some clip `c`
encodes cleanly and `c`'s probe or ffmpeg call fails, the loop propagates an
exception (no list of paths is returned), the filesystem holds exactly the
files of the clips before `c`, and at most one ffmpeg command was issued in
total beyond those of the earlier clips — in particular `c` is never
retried. -/
theorem encodeLoop_abort (d : ℕ) :
    ∀ (pre : List ClipAttempt) (b : ℕ) (c : ClipAttempt) (post : List ClipAttempt),
      (∀ a ∈ pre, a.vaapiOk = true ∧ a.encodeOk = true) →
      (c.vaapiOk = false ∨ c.encodeOk = false) →
      (∃ e, (encodeLoop d b (pre ++ c :: post)).2.2 = .error e) ∧
      (encodeLoop d b (pre ++ c :: post)).2.1 =
        (List.range pre.length).map (fun i => fileName (b + i)) ∧
      (encodeLoop d b (pre ++ c :: post)).1.length ≤ pre.length + 1 := by
  intro pre
  induction pre with
  | nil =>
    intro b c post _ hc
    by_cases hv : c.vaapiOk = false
    · rw [List.nil_append, encodeLoop_cons_noVaapi d b c post hv]
      exact ⟨⟨_, rfl⟩, by simp, by simp⟩
    · rw [Bool.not_eq_false] at hv
      have he : c.encodeOk = false := by
        rcases hc with h | h
        · exact absurd hv (by rw [h]; exact Bool.false_ne_true)
        · exact h
      rw [List.nil_append, encodeLoop_cons_encFail d b c post hv he]
      exact ⟨⟨_, rfl⟩, by simp, by simp⟩
  | cons a pre ih =>
    intro b c post hgood hc
    obtain ⟨hv, he⟩ := hgood a (List.mem_cons_self a pre)
    have hpre : ∀ x ∈ pre, x.vaapiOk = true ∧ x.encodeOk = true :=
      fun x hx => hgood x (List.mem_cons_of_mem _ hx)
    obtain ⟨⟨e, ih1⟩, ih2, ih3⟩ := ih (b + 1) c post hpre hc
    rw [List.cons_append, encodeLoop_cons_good d b a (pre ++ c :: post) hv he]
    refine ⟨⟨e, ?_⟩, ?_, ?_⟩
    · simp only [ih1]
      rfl
    · simp only [List.length_cons, fileName_range_succ, ih2]
    · simp only [List.length_cons]
      omega

/-- When the per-clip `has_vaapi()` probe fails mid-run (after `pre`
successful clips), the loop raises the `RuntimeError` of lines 54–56:
no ffmpeg command is issued for that clip and nothing proceeds in any
software mode. -/
theorem encodeLoop_probe_fail (d : ℕ) :
    ∀ (pre : List ClipAttempt) (b : ℕ) (c : ClipAttempt) (post : List ClipAttempt),
      (∀ a ∈ pre, a.vaapiOk = true ∧ a.encodeOk = true) →
      c.vaapiOk = false →
      (encodeLoop d b (pre ++ c :: post)).2.2 = .error .noVaapiDevice ∧
      (encodeLoop d b (pre ++ c :: post)).1.length = pre.length := by
  intro pre
  induction pre with
  | nil =>
    intro b c post _ hv
    rw [List.nil_append, encodeLoop_cons_noVaapi d b c post hv]
    exact ⟨rfl, rfl⟩
  | cons a pre ih =>
    intro b c post hgood hv
    obtain ⟨hav, hae⟩ := hgood a (List.mem_cons_self a pre)
    have hpre : ∀ x ∈ pre, x.vaapiOk = true ∧ x.encodeOk = true :=
      fun x hx => hgood x (List.mem_cons_of_mem _ hx)
    obtain ⟨ih1, ih2⟩ := ih (b + 1) c post hpre hv
    rw [List.cons_append, encodeLoop_cons_good d b a (pre ++ c :: post) hav hae]
    refine ⟨?_, ?_⟩
    · simp only [ih1]
      rfl
    · simp only [List.length_cons, ih2]

/-! ## Concrete evaluations used as run instances -/

theorem draw_one_singleton {α : Type} [DecidableEq α] (seed : ℕ) (x : α) :
    drawWithoutReplacement seed 1 [x] = [x] := by
  show drawWithoutReplacement seed (0 + 1) [x] = [x]
  rw [drawWithoutReplacement]
  simp [Nat.mod_one, drawWithoutReplacement]

theorem usableDuration_30 : usableDuration 30 30 = 30 := by
  unfold usableDuration trimEnd trimStart
  rw [max_eq_right (by norm_num)]
  norm_num

theorem allPossibleStarts_30 : allPossibleStarts 30 30 = [10] := by
  rw [allPossibleStarts_eq, usableDuration_30]
  have h : ((⌊(30 : ℚ) - ((30 : ℕ) : ℚ)⌋).toNat + 1) = 1 := by
    norm_num
  rw [h]
  have h2 : List.range 1 = [0] := rfl
  rw [h2]
  simp [trimStart]

theorem actualClipCount_30 : actualClipCount 30 30 1 = 1 := by
  unfold actualClipCount
  rw [usableDuration_30, allPossibleStarts_30]
  have h : (⌊(30 : ℚ) / ((30 : ℕ) : ℚ)⌋).toNat = 1 := by
    norm_num
  rw [h]
  decide

theorem chosenStarts_30 : chosenStarts 0 30 30 1 = [10] := by
  unfold chosenStarts
  rw [actualClipCount_30, allPossibleStarts_30, draw_one_singleton]
  rfl

/-- A 30-second source with 30-second clips: the clamp sets
`trim_end = 40`, `usable = 30`, one candidate (`t = 10`), one clip with
ordinal `existingCount + 1`. -/
theorem sample_30_eval (e : ℕ) :
    cutSegmentsSample 0 30 30 1 e = .ok [⟨e + 1, 10, 30⟩] := by
  rw [cutSegmentsSample_eq, chosenStarts_30]
  rfl

/-! ## Claim theorems -/

/-- C2 (code bug evidence): for `totalDuration = 30 < 20 + 30` the sampler
does **not** fail with the too-short error — the clamp of line 144 makes the
check of lines 147–151 pass, and one clip request `[10, 40)` is produced,
so an encode attempt follows. -/
theorem short_video_not_rejected :
    (30 : ℚ) < 20 + (30 : ℕ) ∧
    cutSegmentsSample 0 30 30 1 0 = .ok [⟨1, 10, 30⟩] :=
  ⟨by norm_num, sample_30_eval 0⟩

/-- C3: for `totalDuration ≥ 20 + clipDuration`, `clipDuration ∈ {30,60}`
and `requestedCount ≥ 1`, the sampler succeeds with exactly
`min(requestedCount, ⌊usable/clipDuration⌋, |candidates|)` clip requests,
where `usable = totalDuration - 20` and `|candidates| = ⌊usable - clipDuration⌋ + 1`,
and every returned start lies in `[10, totalDuration - 10 - clipDuration]`. -/
theorem sample_count_and_range (seed : ℕ) (total : ℚ) (d n e : ℕ)
    (hd : d = 30 ∨ d = 60) (hn : 1 ≤ n) (hlong : 20 + (d : ℚ) ≤ total) :
    ∃ reqs, cutSegmentsSample seed total d n e = .ok reqs ∧
      reqs.length =
        min n (min (⌊(total - 20) / (d : ℚ)⌋).toNat ((⌊total - 20 - (d : ℚ)⌋).toNat + 1)) ∧
      ∀ r ∈ reqs, 10 ≤ r.start ∧ r.start ≤ total - 10 - (d : ℚ) := by
  have hte : trimEnd total d = total - 10 := by
    unfold trimEnd trimStart
    rw [max_eq_left (by linarith)]
  refine ⟨_, cutSegmentsSample_eq seed total d n e, ?_, ?_⟩
  · rw [enumMap_length, chosenStarts_length]
    unfold actualClipCount
    rw [length_allPossibleStarts, usableDuration_of_long hlong, Nat.min_assoc]
  · intro r hr
    have hstart : r.start ∈ allPossibleStarts total d :=
      chosenStarts_subset seed total d n r.start
        (enumMap_mem_start (chosenStarts seed total d n) (e + 1) d r hr)
    obtain ⟨i, hx, hle⟩ := mem_allPossibleStarts.mp hstart
    rw [hte] at hle
    unfold trimStart at hx hle
    constructor
    · have : (0 : ℚ) ≤ (i : ℚ) := by positivity
      rw [hx]; linarith
    · rw [hx]; linarith

/-- Witness for C3 at the spec's own scenario:
`totalDuration=100, clipDuration=30, requestedCount=5` produces exactly
2 clips. -/
theorem sample_count_and_range_witness :
    ∃ reqs, cutSegmentsSample 0 100 30 5 0 = .ok reqs ∧ reqs.length = 2 := by
  obtain ⟨reqs, hok, hlen, _⟩ :=
    sample_count_and_range 0 100 30 5 0 (Or.inl rfl) (by norm_num) (by norm_num)
  refine ⟨reqs, hok, ?_⟩
  rw [hlen]
  have h1 : (⌊((100 : ℚ) - 20) / ((30 : ℕ) : ℚ)⌋).toNat = 2 := by
    norm_num
    decide
  have h2 : (⌊(100 : ℚ) - 20 - ((30 : ℕ) : ℚ)⌋).toNat = 50 := by
    norm_num
    decide
  rw [h1, h2]
  decide

/-- C5: the candidate start set is exactly the 1-second-grid offsets
`10, 11, 12, ...` from which a whole clip fits before `trim_end`, and its
size is `⌊usable - clipDuration⌋ + 1` (not derived from
`usable / clipDuration`). -/
theorem candidate_set_closed_form (total : ℚ) (d : ℕ) :
    (allPossibleStarts total d).length =
      (⌊usableDuration total d - (d : ℚ)⌋).toNat + 1 ∧
    ∀ x : ℚ, x ∈ allPossibleStarts total d ↔
      ∃ i : ℕ, x = 10 + (i : ℚ) ∧ x + (d : ℚ) ≤ trimEnd total d := by
  refine ⟨length_allPossibleStarts total d, ?_⟩
  intro x
  rw [mem_allPossibleStarts]
  unfold trimStart
  constructor
  · rintro ⟨i, hx, hle⟩
    exact ⟨i, hx, by rw [hx]; exact hle⟩
  · rintro ⟨i, hx, hle⟩
    exact ⟨i, hx, by rw [← hx]; exact hle⟩

/-- C6: whenever the sampler succeeds, the returned starts are pairwise
distinct members of the 1-second-grid candidate set, listed in ascending
order. -/
theorem sample_nodup_subset_sorted (seed : ℕ) (total : ℚ) (d n e : ℕ)
    (reqs : List ClipRequest) (hok : cutSegmentsSample seed total d n e = .ok reqs) :
    (reqs.map (fun r => r.start)).Nodup ∧
    (∀ r ∈ reqs, r.start ∈ allPossibleStarts total d) ∧
    List.Sorted (· ≤ ·) (reqs.map (fun r => r.start)) := by
  have h := (cutSegmentsSample_eq seed total d n e).symm.trans hok
  have hreqs := (Except.ok.inj h).symm
  subst hreqs
  rw [enumMap_start]
  exact ⟨chosenStarts_nodup seed total d n,
    fun r hr => chosenStarts_subset seed total d n r.start
      (enumMap_mem_start (chosenStarts seed total d n) (e + 1) d r hr),
    chosenStarts_sorted seed total d n⟩

theorem sample_nodup_subset_sorted_witness :
    ∃ reqs, cutSegmentsSample 0 30 30 1 0 = .ok reqs ∧
      (reqs.map (fun r => r.start)).Nodup := by
  obtain ⟨h1, _, _⟩ :=
    sample_nodup_subset_sorted 0 30 30 1 0 [⟨1, 10, 30⟩] (sample_30_eval 0)
  exact ⟨_, sample_30_eval 0, h1⟩

/-- C9: with the random source fixed (same seed) and identical inputs, two
sampler invocations return identical `ClipRequest` lists. -/
theorem sample_deterministic (seed seed' : ℕ) (total : ℚ) (d n e : ℕ)
    (h : seed = seed') :
    cutSegmentsSample seed total d n e = cutSegmentsSample seed' total d n e := by
  rw [h]

theorem sample_deterministic_witness :
    cutSegmentsSample 0 100 30 5 0 = cutSegmentsSample 0 100 30 5 0 :=
  sample_deterministic 0 0 100 30 5 0 rfl

/-- C10: for every probed duration and `clipDuration ∈ {30, 60}`, the clamp
of line 144 forces `usable_duration ≥ duration`, so the "Video too short
after trimming" branch is unreachable and the sampler succeeds; `t = 10.0`
is always a candidate, at least one clip is selected when
`num_clips ≥ 1`, and when `totalDuration < 10 + clipDuration` every
selected window `[10, 10 + clipDuration)` extends past the end of the
source. -/
theorem short_check_unreachable (seed : ℕ) (total : ℚ) (d n e : ℕ)
    (hd : d = 30 ∨ d = 60) (hn : 1 ≤ n) :
    (d : ℚ) ≤ usableDuration total d ∧
    trimStart ∈ allPossibleStarts total d ∧
    ∃ reqs, cutSegmentsSample seed total d n e = .ok reqs ∧ 1 ≤ reqs.length ∧
      (total < 10 + (d : ℚ) →
        ∀ r ∈ reqs, r.start = 10 ∧ total < r.start + (r.duration : ℚ)) := by
  have hd0 : 0 < d := by rcases hd with h | h <;> omega
  refine ⟨duration_le_usableDuration total d,
    trimStart_mem_allPossibleStarts total d,
    _, cutSegmentsSample_eq seed total d n e, ?_, ?_⟩
  · rw [enumMap_length, chosenStarts_length]
    exact one_le_actualClipCount total d n hd0 hn
  · intro hshort r hr
    have hte : trimEnd total d = trimStart + (d : ℚ) := by
      unfold trimEnd trimStart
      exact max_eq_right (by linarith)
    have hstart : r.start ∈ allPossibleStarts total d :=
      chosenStarts_subset seed total d n r.start
        (enumMap_mem_start (chosenStarts seed total d n) (e + 1) d r hr)
    obtain ⟨i, hx, hle⟩ := mem_allPossibleStarts.mp hstart
    rw [hte] at hle
    have hi0 : i = 0 := by
      by_contra hne
      have h1 : (1 : ℚ) ≤ (i : ℚ) := by exact_mod_cast Nat.one_le_iff_ne_zero.mpr hne
      unfold trimStart at hle
      linarith
    have hdur : r.duration = d :=
      enumMap_duration (chosenStarts seed total d n) (e + 1) d r hr
    subst hi0
    unfold trimStart at hx
    refine ⟨by rw [hx]; norm_num, ?_⟩
    rw [hx, hdur]
    push_cast
    linarith

theorem short_check_unreachable_witness :
    ∃ reqs, cutSegmentsSample 0 15 30 1 0 = .ok reqs ∧ 1 ≤ reqs.length ∧
      ∀ r ∈ reqs, r.start = 10 ∧ (15 : ℚ) < r.start + (r.duration : ℚ) := by
  obtain ⟨_, _, reqs, hok, hlen, hshort⟩ :=
    short_check_unreachable 0 15 30 1 0 (Or.inl rfl) (by norm_num)
  exact ⟨reqs, hok, hlen, hshort (by norm_num)⟩

/-- C7: on a successful sampler run with `existingCount = e` pre-existing
files, ordinals are `e+1, e+2, ...` assigned in ascending-start order, and a
fully successful encode run over those requests returns exactly the files
`bg_{e+1:03d}.mp4, ..., bg_{e+k:03d}.mp4` in that order. -/
theorem sample_ordinals_and_filenames (seed : ℕ) (total : ℚ) (d n e : ℕ)
    (reqs : List ClipRequest) (hok : cutSegmentsSample seed total d n e = .ok reqs) :
    reqs.map (fun r => r.index) = (List.range reqs.length).map (fun i => e + 1 + i) ∧
    List.Sorted (· ≤ ·) (reqs.map (fun r => r.start)) ∧
    (encodeLoop d (e + 1) (reqs.map (fun r => ⟨r.start, true, true⟩))).2.2 =
      .ok ((List.range reqs.length).map (fun i => fileName (e + 1 + i))) := by
  have h := (cutSegmentsSample_eq seed total d n e).symm.trans hok
  have hreqs := (Except.ok.inj h).symm
  subst hreqs
  refine ⟨?_, ?_, ?_⟩
  · rw [enumMap_index, enumMap_length]
  · rw [enumMap_start]
    exact chosenStarts_sorted seed total d n
  · have hatt : ∀ a ∈ (((chosenStarts seed total d n).enum.map
        (fun p => (⟨e + 1 + p.1, p.2, d⟩ : ClipRequest))).map
          (fun r => (⟨r.start, true, true⟩ : ClipAttempt))),
        a.vaapiOk = true ∧ a.encodeOk = true := by
      intro a ha
      obtain ⟨r, _, rfl⟩ := List.mem_map.mp ha
      exact ⟨rfl, rfl⟩
    obtain ⟨_, h2⟩ := encodeLoop_all_ok d _ (e + 1) hatt
    rw [h2, List.length_map]

theorem sample_ordinals_and_filenames_witness :
    ∃ reqs, cutSegmentsSample 0 30 30 1 2 = .ok reqs ∧
      reqs.map (fun r => r.index) = [3] ∧
      (encodeLoop 30 (2 + 1) (reqs.map (fun r => ⟨r.start, true, true⟩))).2.2 =
        .ok ["bg_003.mp4"] := by
  obtain ⟨h1, h2, h3⟩ :=
    sample_ordinals_and_filenames 0 30 30 1 2 _ (sample_30_eval 2)
  exact ⟨_, sample_30_eval 2, h1.trans rfl, h3.trans rfl⟩

/-- C1 counterexample: a run whose first clip's (accelerated) ffmpeg call
fails, while hardware is available throughout and a second clip is pending.
The run aborts at once with the propagated subprocess error: exactly one
encode command was issued (for clip 1, with the `h264_vaapi` encoder), so
the failed clip was never retried — in software mode or otherwise — and
clip 2 was never attempted. -/
theorem accel_failure_aborts_without_software_retry :
    encodeLoop 30 3 [⟨10, true, false⟩, ⟨20, true, true⟩] =
      ([⟨"h264_vaapi", 10, 30, "bg_003.mp4"⟩], [], .error .subprocessFailed) := rfl

/-- C1 amended: when any clip's encode attempt fails (probe or ffmpeg), the
run aborts immediately with an exception; the failing clip is attempted at
most once (the trace holds at most one command beyond the earlier clips'
single commands), there is no software fallback, and every command uses the
`h264_vaapi` encoder. -/
theorem encode_failure_aborts_no_retry (d b : ℕ) (pre : List ClipAttempt)
    (c : ClipAttempt) (post : List ClipAttempt)
    (hpre : ∀ a ∈ pre, a.vaapiOk = true ∧ a.encodeOk = true)
    (hc : c.vaapiOk = false ∨ c.encodeOk = false) :
    (∃ e, (encodeLoop d b (pre ++ c :: post)).2.2 = .error e) ∧
    (encodeLoop d b (pre ++ c :: post)).1.length ≤ pre.length + 1 ∧
    ∀ cmd ∈ (encodeLoop d b (pre ++ c :: post)).1, cmd.codec = "h264_vaapi" := by
  obtain ⟨h1, _, h3⟩ := encodeLoop_abort d pre b c post hpre hc
  exact ⟨h1, h3, encodeLoop_codec d _ b⟩

theorem encode_failure_aborts_no_retry_witness :
    (∃ e, (encodeLoop 30 1 [⟨10, true, false⟩]).2.2 = .error e) ∧
    (encodeLoop 30 1 [⟨10, true, false⟩]).1.length ≤ 1 ∧
    ∀ cmd ∈ (encodeLoop 30 1 [⟨10, true, false⟩]).1, cmd.codec = "h264_vaapi" := by
  have h := encode_failure_aborts_no_retry 30 1 [] ⟨10, true, false⟩ []
    (by intro a ha; exact absurd ha (List.not_mem_nil a)) (Or.inr rfl)
  exact ⟨h.1, h.2.1, h.2.2⟩

/-- C4 counterexample: (i) when the probe reports no hardware the run does
not proceed in any software mode — it aborts with the `RuntimeError` before
issuing a single encode command; (ii) availability is re-probed inside every
clip's `cut_with_ffmpeg` call: after clip 1 succeeds, a failing probe at
clip 2 aborts the run mid-batch. -/
theorem no_mode_latch_counterexample :
    encodeLoop 30 1 [⟨10, false, true⟩] = ([], [], .error .noVaapiDevice) ∧
    encodeLoop 30 1 [⟨10, true, true⟩, ⟨20, false, true⟩] =
      ([⟨"h264_vaapi", 10, 30, "bg_001.mp4"⟩], ["bg_001.mp4"], .error .noVaapiDevice) :=
  ⟨rfl, rfl⟩

/-- C4 amended: there is no encoder-mode state and no software path.
`has_vaapi()` is called inside every clip's `cut_with_ffmpeg` invocation;
when it fails for some clip (even after earlier successes) the run aborts
with the `RuntimeError`, no command is issued for that clip, and every
command ever issued uses the `h264_vaapi` encoder. -/
theorem vaapi_probed_per_clip (d b : ℕ) (pre : List ClipAttempt)
    (c : ClipAttempt) (post : List ClipAttempt)
    (hpre : ∀ a ∈ pre, a.vaapiOk = true ∧ a.encodeOk = true)
    (hv : c.vaapiOk = false) :
    (encodeLoop d b (pre ++ c :: post)).2.2 = .error .noVaapiDevice ∧
    (encodeLoop d b (pre ++ c :: post)).1.length = pre.length ∧
    ∀ cmd ∈ (encodeLoop d b (pre ++ c :: post)).1, cmd.codec = "h264_vaapi" := by
  obtain ⟨h1, h2⟩ := encodeLoop_probe_fail d pre b c post hpre hv
  exact ⟨h1, h2, encodeLoop_codec d _ b⟩

theorem vaapi_probed_per_clip_witness :
    (encodeLoop 30 1 [⟨10, true, true⟩, ⟨20, false, true⟩]).2.2 =
      .error .noVaapiDevice ∧
    (encodeLoop 30 1 [⟨10, true, true⟩, ⟨20, false, true⟩]).1.length = 1 := by
  have h := vaapi_probed_per_clip 30 1 [⟨10, true, true⟩] ⟨20, false, true⟩ []
    (by intro a ha; rw [List.mem_singleton] at ha; subst ha; exact ⟨rfl, rfl⟩) rfl
  exact ⟨h.1, h.2.1⟩

/-- C8: any clip failure aborts the whole batch — the caller gets a
propagated exception, never a partial path list — while the files of the
clips successfully finalized before the failing one remain on disk (they
are not rolled back). -/
theorem abort_keeps_earlier_files (d b : ℕ) (pre : List ClipAttempt)
    (c : ClipAttempt) (post : List ClipAttempt)
    (hpre : ∀ a ∈ pre, a.vaapiOk = true ∧ a.encodeOk = true)
    (hc : c.vaapiOk = false ∨ c.encodeOk = false) :
    (∃ e, (encodeLoop d b (pre ++ c :: post)).2.2 = .error e) ∧
    (encodeLoop d b (pre ++ c :: post)).2.1 =
      (List.range pre.length).map (fun i => fileName (b + i)) := by
  obtain ⟨h1, h2, _⟩ := encodeLoop_abort d pre b c post hpre hc
  exact ⟨h1, h2⟩

theorem abort_keeps_earlier_files_witness :
    (∃ e, (encodeLoop 30 1
      [⟨10, true, true⟩, ⟨20, true, false⟩, ⟨30, true, true⟩]).2.2 = .error e) ∧
    (encodeLoop 30 1
      [⟨10, true, true⟩, ⟨20, true, false⟩, ⟨30, true, true⟩]).2.1 = ["bg_001.mp4"] := by
  have h := abort_keeps_earlier_files 30 1 [⟨10, true, true⟩] ⟨20, true, false⟩
    [⟨30, true, true⟩]
    (by intro a ha; rw [List.mem_singleton] at ha; subst ha; exact ⟨rfl, rfl⟩)
    (Or.inr rfl)
  exact ⟨h.1, h.2.trans rfl⟩

end YtDownload
